import Mathlib

/-!
Formal model of the skills-gap analysis component of the LearnFinity
personalization demo (`personalization_data/demo/python_code.py`), namely the
functions `analyze_skills_gap` and `identify_learning_priorities`.

Proficiency values are modelled as unbounded integers, matching Python ints:
the code compares them numerically against the thresholds 3 and 4 and never
validates a range. String comparison is case-insensitive via `toLower`,
matching the `.lower()` calls in the source. The expression
`gap["skills"][0]` in `identify_learning_priorities` raises an `IndexError`
on an empty list, so that function (and hence `analyze_skills_gap`, which
calls it) is modelled as `Option`-valued, `none` standing for the raised
error.
-/

namespace LearnFinity

/-- One employee skill record: a name and an integer proficiency, as read
from `employee_data["skills"][i]["skills"][j]`. -/
structure EmpSkillEntry where
  name : String
  proficiency : Int
  deriving Repr, DecidableEq

/-- One category of employee skills, as in `employee_data["skills"][i]`. -/
structure EmpSkillCategory where
  category : String
  skills : List EmpSkillEntry
  deriving Repr, DecidableEq

/-- The part of `employee_data` that `analyze_skills_gap` reads. -/
structure EmployeeData where
  skills : List EmpSkillCategory
  deriving Repr, DecidableEq

/-- One entry of `position_requirements["required_skills"]`: a category name,
a list of required skill names, and an optional priority (the code reads it
with `req_category.get("priority", "Medium")`). -/
structure ReqCategory where
  category : String
  skills : List String
  priority : Option String
  deriving Repr, DecidableEq

/-- The part of `position_requirements` that `analyze_skills_gap` reads. -/
structure PositionRequirements where
  required_skills : List ReqCategory
  deriving Repr, DecidableEq

/-- A flattened employee skill triple, as built into `employee_skills`
(lines 28-35 of the source file). -/
structure FlatSkill where
  name : String
  proficiency : Int
  category : String
  deriving Repr, DecidableEq

/-- One entry appended to `skill_gaps` (lines 58-63). -/
structure SkillGapEntry where
  category : String
  skills : List String
  priority : String
  deriving Repr, DecidableEq

/-- The dictionary returned by `analyze_skills_gap` (lines 70-74). -/
structure GapReport where
  transferable_skills : List String
  skill_gaps : List SkillGapEntry
  learning_priorities : List String
  deriving Repr, DecidableEq

/-- The `.lower()` calls of the source, modelled as per-character ASCII
lowercasing of the underlying character list. -/
def strLower (s : String) : String :=
  ⟨s.data.map Char.toLower⟩

/-- Lines 28-35: the two nested loops that flatten
`employee_data["skills"]` into `employee_skills`, preserving
category-then-skill order. -/
def flattenSkills (employee_data : EmployeeData) : List FlatSkill :=
  employee_data.skills.flatMap fun c =>
    c.skills.map fun s => ⟨s.name, s.proficiency, c.category⟩

/-- Lines 45-53: the `for emp_skill in employee_skills` loop with its
`break`: scan `employee_skills` for the first entry whose lowercased name
equals the lowercased required skill. -/
def lookupSkill (skill : String) : List FlatSkill → Option FlatSkill
  | [] => none
  | e :: rest =>
    if strLower e.name = strLower skill then some e else lookupSkill skill rest

/-- Lines 43-56: the loop over one required category, threading
`category_gaps` (first component) and `transferable_skills` (second
component). A first match with proficiency at least 3 appends the employee
skill name to `transferable_skills`; a first match with lower proficiency,
or no match at all (`found` stays false), appends the required skill to
`category_gaps`. -/
def processReqSkills (empSkills : List FlatSkill) :
    List String → List String → List String → List String × List String
  | [], catGaps, transferable => (catGaps, transferable)
  | s :: rest, catGaps, transferable =>
    match lookupSkill s empSkills with
    | some e =>
      if e.proficiency ≥ 3 then
        processReqSkills empSkills rest catGaps (transferable ++ [e.name])
      else
        processReqSkills empSkills rest (catGaps ++ [s]) transferable
    | none => processReqSkills empSkills rest (catGaps ++ [s]) transferable

/-- Lines 41-63: the loop over required categories, threading
`transferable_skills` (first component of the result) and `skill_gaps`
(second component). A category with empty `category_gaps` appends no entry
(`if category_gaps:`), and the priority field defaults to Medium
(`req_category.get("priority", "Medium")`). -/
def processCategories (empSkills : List FlatSkill) :
    List ReqCategory → List String → List SkillGapEntry →
    List String × List SkillGapEntry
  | [], transferable, gaps => (transferable, gaps)
  | rc :: rest, transferable, gaps =>
    let r := processReqSkills empSkills rc.skills [] transferable
    processCategories empSkills rest r.2
      (if r.1 = [] then gaps
       else gaps ++ [⟨rc.category, r.1, rc.priority.getD "Medium"⟩])

/-- Lines 66-68: the second pass over `employee_skills`, appending every
skill with proficiency at least 4 whose name is not already in
`transferable_skills`. -/
def addHighProficiency : List FlatSkill → List String → List String
  | [], transferable => transferable
  | e :: rest, transferable =>
    if e.proficiency ≥ 4 ∧ e.name ∉ transferable then
      addHighProficiency rest (transferable ++ [e.name])
    else
      addHighProficiency rest transferable

/-- Lines 80-84: the first pass of `identify_learning_priorities`, appending
up to the first 3 gap skills of every High-priority gap entry. -/
def addHighPriorities : List SkillGapEntry → List String → List String
  | [], acc => acc
  | g :: rest, acc =>
    addHighPriorities rest
      (if g.priority = "High" then acc ++ g.skills.take 3 else acc)

/-- Lines 87-90: the second pass, appending `gap["skills"][0]` of every
Medium-priority gap entry while the running list is shorter than 5. The
Python `and` short-circuits, so the indexing happens only when the guard
holds; indexing an empty skills list raises, modelled as `none`. -/
def addMediumPriorities : List SkillGapEntry → List String → Option (List String)
  | [], acc => some acc
  | g :: rest, acc =>
    if g.priority = "Medium" ∧ acc.length < 5 then
      match g.skills with
      | [] => none
      | s :: _ => addMediumPriorities rest (acc ++ [s])
    else
      addMediumPriorities rest acc

/-- Lines 76-92: `identify_learning_priorities`. The Medium pass runs only
when the High pass produced fewer than 5 entries, and the returned list is
truncated to its first 5 entries (`priorities[:5]`). -/
def identify_learning_priorities (skill_gaps : List SkillGapEntry) :
    Option (List String) :=
  let priorities := addHighPriorities skill_gaps []
  if priorities.length < 5 then
    (addMediumPriorities skill_gaps priorities).map fun p => p.take 5
  else
    some (priorities.take 5)

/-- Lines 25-74: `analyze_skills_gap`, assembling the report from the
flattened employee skills, the category loop, the high-proficiency second
pass and `identify_learning_priorities`. -/
def analyze_skills_gap (employee_data : EmployeeData)
    (position_requirements : PositionRequirements) : Option GapReport :=
  let employee_skills := flattenSkills employee_data
  let r := processCategories employee_skills
    position_requirements.required_skills [] []
  (identify_learning_priorities r.2).map fun lp =>
    ⟨addHighProficiency employee_skills r.1, r.2, lp⟩

/-- The per-required-skill gap outcome, extracted from the category loop:
a required skill is a gap exactly when it has no match or its first match
has proficiency below 3. -/
def pureGaps (empSkills : List FlatSkill) (skills : List String) : List String :=
  skills.filter fun s =>
    match lookupSkill s empSkills with
    | some e => decide (e.proficiency < 3)
    | none => true

/-- The per-required-skill transferable outcome of the category loop: the
employee-side names of required skills whose first match has proficiency
at least 3. -/
def transfOf (empSkills : List FlatSkill) (skills : List String) : List String :=
  skills.filterMap fun s =>
    match lookupSkill s empSkills with
    | some e => if e.proficiency ≥ 3 then some e.name else none
    | none => none

/-- The `skill_gaps` entry a required category contributes, if any. -/
def gapEntryOf (empSkills : List FlatSkill) (rc : ReqCategory) :
    Option SkillGapEntry :=
  if pureGaps empSkills rc.skills = [] then none
  else some ⟨rc.category, pureGaps empSkills rc.skills, rc.priority.getD "Medium"⟩

/-- The full `skill_gaps` list produced by the category loop. -/
def gapsOf (empSkills : List FlatSkill) (rcs : List ReqCategory) :
    List SkillGapEntry :=
  rcs.filterMap (gapEntryOf empSkills)

/-- The full `transferable_skills` list produced by the category loop,
before the proficiency-4 second pass. -/
def transfAll (empSkills : List FlatSkill) (rcs : List ReqCategory) :
    List String :=
  rcs.flatMap fun rc => transfOf empSkills rc.skills

theorem processReqSkills_eq (empSkills : List FlatSkill) :
    ∀ (skills catGaps transferable : List String),
      processReqSkills empSkills skills catGaps transferable =
        (catGaps ++ pureGaps empSkills skills,
         transferable ++ transfOf empSkills skills) := by
  intro skills
  induction skills with
  | nil => intro catGaps transferable; simp [processReqSkills, pureGaps, transfOf]
  | cons s rest ih =>
    intro catGaps transferable
    cases h : lookupSkill s empSkills with
    | none =>
      simp [processReqSkills, h, ih, pureGaps, transfOf, List.filter_cons,
        List.filterMap_cons]
    | some e =>
      by_cases hp : e.proficiency ≥ 3
      · have hlt : ¬ e.proficiency < 3 := not_lt.mpr hp
        simp [processReqSkills, h, hp, ih, pureGaps, transfOf, List.filter_cons,
          List.filterMap_cons, hlt]
      · have hlt : e.proficiency < 3 := lt_of_not_ge hp
        simp [processReqSkills, h, hp, ih, pureGaps, transfOf, List.filter_cons,
          List.filterMap_cons, hlt, not_le.mpr hlt]

theorem processCategories_eq (empSkills : List FlatSkill) :
    ∀ (rcs : List ReqCategory) (transferable : List String)
      (gaps : List SkillGapEntry),
      processCategories empSkills rcs transferable gaps =
        (transferable ++ transfAll empSkills rcs,
         gaps ++ gapsOf empSkills rcs) := by
  intro rcs
  induction rcs with
  | nil =>
    intro transferable gaps
    simp [processCategories, transfAll, gapsOf]
  | cons rc rest ih =>
    intro transferable gaps
    simp only [processCategories, processReqSkills_eq]
    by_cases hg : pureGaps empSkills rc.skills = []
    · simp [hg, ih, transfAll, gapsOf, gapEntryOf, List.filterMap_cons]
    · simp [hg, ih, transfAll, gapsOf, gapEntryOf, List.filterMap_cons]

theorem analyze_skills_gap_eq (employee_data : EmployeeData)
    (position_requirements : PositionRequirements) :
    analyze_skills_gap employee_data position_requirements =
      (identify_learning_priorities
        (gapsOf (flattenSkills employee_data)
          position_requirements.required_skills)).map fun lp =>
        ⟨addHighProficiency (flattenSkills employee_data)
           (transfAll (flattenSkills employee_data)
             position_requirements.required_skills),
         gapsOf (flattenSkills employee_data)
           position_requirements.required_skills, lp⟩ := by
  simp [analyze_skills_gap, processCategories_eq]

theorem lookupSkill_eq_find (s : String) :
    ∀ l : List FlatSkill,
      lookupSkill s l = l.find? fun e => strLower e.name == strLower s := by
  intro l
  induction l with
  | nil => rfl
  | cons e rest ih =>
    by_cases h : strLower e.name = strLower s
    · simp [lookupSkill, h, List.find?_cons]
    · simp [lookupSkill, h, ih, List.find?_cons]

theorem lookupSkill_append (s : String) (l₂ : List FlatSkill) :
    ∀ (l₁ : List FlatSkill) (e : FlatSkill),
      lookupSkill s l₁ = some e → lookupSkill s (l₁ ++ l₂) = some e := by
  intro l₁
  induction l₁ with
  | nil => intro e h; simp [lookupSkill] at h
  | cons a rest ih =>
    intro e h
    by_cases ha : strLower a.name = strLower s
    · simp only [lookupSkill, if_pos ha] at h
      simp only [List.cons_append, lookupSkill, if_pos ha]
      exact h
    · simp only [lookupSkill, if_neg ha] at h
      simp only [List.cons_append, lookupSkill, if_neg ha]
      exact ih e h

theorem lookupSkill_eq_none_iff (s : String) :
    ∀ l : List FlatSkill,
      lookupSkill s l = none ↔ ∀ e ∈ l, strLower e.name ≠ strLower s := by
  intro l
  induction l with
  | nil => simp [lookupSkill]
  | cons a rest ih =>
    by_cases ha : strLower a.name = strLower s
    · simp [lookupSkill, ha]
    · simp [lookupSkill, ha, ih]

theorem mem_addHighProficiency_of_mem :
    ∀ (l : List FlatSkill) (transferable : List String) (x : String),
      x ∈ transferable → x ∈ addHighProficiency l transferable := by
  intro l
  induction l with
  | nil => intro transferable x hx; exact hx
  | cons e rest ih =>
    intro transferable x hx
    by_cases h : e.proficiency ≥ 4 ∧ e.name ∉ transferable
    · simp only [addHighProficiency, if_pos h]
      exact ih _ _ (List.mem_append_left _ hx)
    · simp only [addHighProficiency, if_neg h]
      exact ih _ _ hx

theorem name_mem_addHighProficiency :
    ∀ (l : List FlatSkill) (transferable : List String) (e : FlatSkill),
      e ∈ l → e.proficiency ≥ 4 →
      e.name ∈ addHighProficiency l transferable := by
  intro l
  induction l with
  | nil => intro transferable e he; exact absurd he (List.not_mem_nil e)
  | cons a rest ih =>
    intro transferable e he h4
    rcases List.mem_cons.mp he with rfl | hmem
    · by_cases h : e.proficiency ≥ 4 ∧ e.name ∉ transferable
      · simp only [addHighProficiency, if_pos h]
        exact mem_addHighProficiency_of_mem _ _ _
          (List.mem_append_right _ (List.mem_singleton_self _))
      · have hin : e.name ∈ transferable := by
          by_contra hn
          exact h ⟨h4, hn⟩
        simp only [addHighProficiency, if_neg h]
        exact mem_addHighProficiency_of_mem _ _ _ hin
    · by_cases h : a.proficiency ≥ 4 ∧ a.name ∉ transferable
      · simp only [addHighProficiency, if_pos h]
        exact ih _ _ hmem h4
      · simp only [addHighProficiency, if_neg h]
        exact ih _ _ hmem h4

theorem nodup_addHighProficiency :
    ∀ (l : List FlatSkill) (transferable : List String),
      transferable.Nodup → (addHighProficiency l transferable).Nodup := by
  intro l
  induction l with
  | nil => intro transferable h; exact h
  | cons e rest ih =>
    intro transferable h
    by_cases hc : e.proficiency ≥ 4 ∧ e.name ∉ transferable
    · simp only [addHighProficiency, if_pos hc]
      refine ih _ ?_
      simp [List.nodup_append, h, hc.2]
    · simp only [addHighProficiency, if_neg hc]
      exact ih _ h

theorem mem_pureGaps_iff (empSkills : List FlatSkill) (skills : List String)
    (s : String) :
    s ∈ pureGaps empSkills skills ↔
      s ∈ skills ∧ ∀ e, lookupSkill s empSkills = some e → e.proficiency < 3 := by
  unfold pureGaps
  rw [List.mem_filter]
  cases h : lookupSkill s empSkills with
  | none => simp [h]
  | some e => simp [h]

theorem mem_transfOf (empSkills : List FlatSkill) (skills : List String)
    (s : String) (e : FlatSkill) (hs : s ∈ skills)
    (h : lookupSkill s empSkills = some e) (hp : e.proficiency ≥ 3) :
    e.name ∈ transfOf empSkills skills := by
  unfold transfOf
  rw [List.mem_filterMap]
  exact ⟨s, hs, by simp [h, hp]⟩

theorem mem_transfAll (empSkills : List FlatSkill) (rcs : List ReqCategory)
    (rc : ReqCategory) (x : String) (hrc : rc ∈ rcs)
    (hx : x ∈ transfOf empSkills rc.skills) :
    x ∈ transfAll empSkills rcs := by
  unfold transfAll
  rw [List.mem_flatMap]
  exact ⟨rc, hrc, hx⟩

theorem gapEntryOf_some (empSkills : List FlatSkill) (rc : ReqCategory)
    (g : SkillGapEntry) (h : gapEntryOf empSkills rc = some g) :
    g.category = rc.category ∧ g.skills = pureGaps empSkills rc.skills ∧
      g.skills ≠ [] ∧ g.priority = rc.priority.getD "Medium" := by
  unfold gapEntryOf at h
  by_cases hg : pureGaps empSkills rc.skills = []
  · simp [hg] at h
  · rw [if_neg hg] at h
    cases h
    exact ⟨rfl, rfl, hg, rfl⟩

theorem mem_gapsOf_iff (empSkills : List FlatSkill) (rcs : List ReqCategory)
    (g : SkillGapEntry) :
    g ∈ gapsOf empSkills rcs ↔ ∃ rc ∈ rcs, gapEntryOf empSkills rc = some g := by
  unfold gapsOf
  rw [List.mem_filterMap]

theorem gapsOf_complete (empSkills : List FlatSkill) (rcs : List ReqCategory)
    (rc : ReqCategory) (s : String) (hrc : rc ∈ rcs)
    (hs : s ∈ pureGaps empSkills rc.skills) :
    ∃ g ∈ gapsOf empSkills rcs, g.category = rc.category ∧ s ∈ g.skills := by
  have hne : pureGaps empSkills rc.skills ≠ [] := by
    intro h
    rw [h] at hs
    exact List.not_mem_nil s hs
  refine ⟨⟨rc.category, pureGaps empSkills rc.skills, rc.priority.getD "Medium"⟩,
    ?_, rfl, hs⟩
  rw [mem_gapsOf_iff]
  exact ⟨rc, hrc, by unfold gapEntryOf; rw [if_neg hne]⟩

theorem gapsOf_skills_ne_nil (empSkills : List FlatSkill)
    (rcs : List ReqCategory) (g : SkillGapEntry) (hg : g ∈ gapsOf empSkills rcs) :
    g.skills ≠ [] := by
  rw [mem_gapsOf_iff] at hg
  obtain ⟨rc, _, h⟩ := hg
  exact (gapEntryOf_some _ _ _ h).2.2.1

/-- The list the High pass of `identify_learning_priorities` appends. -/
def highTake (skill_gaps : List SkillGapEntry) : List String :=
  skill_gaps.flatMap fun g =>
    if g.priority = "High" then g.skills.take 3 else []

theorem addHighPriorities_eq :
    ∀ (skill_gaps : List SkillGapEntry) (acc : List String),
      addHighPriorities skill_gaps acc = acc ++ highTake skill_gaps := by
  intro skill_gaps
  induction skill_gaps with
  | nil => intro acc; simp [addHighPriorities, highTake]
  | cons g rest ih =>
    intro acc
    by_cases h : g.priority = "High"
    · simp [addHighPriorities, highTake, h, ih]
    · simp [addHighPriorities, highTake, h, ih]

theorem mem_highTake (skill_gaps : List SkillGapEntry) (x : String)
    (hx : x ∈ highTake skill_gaps) :
    ∃ g ∈ skill_gaps, x ∈ g.skills := by
  unfold highTake at hx
  rw [List.mem_flatMap] at hx
  obtain ⟨g, hg, hmem⟩ := hx
  refine ⟨g, hg, ?_⟩
  by_cases h : g.priority = "High"
  · rw [if_pos h] at hmem
    exact List.take_subset 3 g.skills hmem
  · rw [if_neg h] at hmem
    exact absurd hmem (List.not_mem_nil x)

theorem addMediumPriorities_isSome (skill_gaps : List SkillGapEntry)
    (hne : ∀ g ∈ skill_gaps, g.skills ≠ []) :
    ∀ acc, (addMediumPriorities skill_gaps acc).isSome := by
  induction skill_gaps with
  | nil => intro acc; rfl
  | cons g rest ih =>
    intro acc
    have hg : g.skills ≠ [] := hne g (List.mem_cons_self g rest)
    have hrest : ∀ g ∈ rest, g.skills ≠ [] := fun g hg =>
      hne g (List.mem_cons_of_mem _ hg)
    by_cases h : g.priority = "Medium" ∧ acc.length < 5
    · simp only [addMediumPriorities, if_pos h]
      cases hs : g.skills with
      | nil => exact absurd hs hg
      | cons s tl => exact ih hrest (acc ++ [s])
    · simp only [addMediumPriorities, if_neg h]
      exact ih hrest acc

theorem mem_of_addMediumPriorities :
    ∀ (skill_gaps : List SkillGapEntry) (acc res : List String),
      addMediumPriorities skill_gaps acc = some res →
      ∀ x ∈ res, x ∈ acc ∨ ∃ g ∈ skill_gaps, x ∈ g.skills := by
  intro skill_gaps
  induction skill_gaps with
  | nil =>
    intro acc res h x hx
    cases h
    exact Or.inl hx
  | cons g rest ih =>
    intro acc res h x hx
    by_cases hc : g.priority = "Medium" ∧ acc.length < 5
    · simp only [addMediumPriorities, if_pos hc] at h
      cases hs : g.skills with
      | nil => rw [hs] at h; cases h
      | cons s tl =>
        rw [hs] at h
        rcases ih (acc ++ [s]) res h x hx with hacc | ⟨g2, hg2, hxg⟩
        · rcases List.mem_append.mp hacc with h1 | h1
          · exact Or.inl h1
          · refine Or.inr ⟨g, List.mem_cons_self g rest, ?_⟩
            rw [hs]
            rw [List.mem_singleton] at h1
            rw [h1]
            exact List.mem_cons_self s tl
        · exact Or.inr ⟨g2, List.mem_cons_of_mem _ hg2, hxg⟩
    · simp only [addMediumPriorities, if_neg hc] at h
      rcases ih acc res h x hx with h1 | ⟨g2, hg2, hxg⟩
      · exact Or.inl h1
      · exact Or.inr ⟨g2, List.mem_cons_of_mem _ hg2, hxg⟩

theorem identify_length (skill_gaps : List SkillGapEntry) (lp : List String)
    (h : identify_learning_priorities skill_gaps = some lp) : lp.length ≤ 5 := by
  unfold identify_learning_priorities at h
  by_cases hlen : (addHighPriorities skill_gaps []).length < 5
  · rw [if_pos hlen] at h
    rw [Option.map_eq_some'] at h
    obtain ⟨p, _, hp⟩ := h
    rw [← hp]
    exact List.length_take_le 5 p
  · rw [if_neg hlen] at h
    cases h
    exact List.length_take_le 5 (addHighPriorities skill_gaps [])

theorem identify_mem (skill_gaps : List SkillGapEntry) (lp : List String)
    (h : identify_learning_priorities skill_gaps = some lp) :
    ∀ x ∈ lp, ∃ g ∈ skill_gaps, x ∈ g.skills := by
  intro x hx
  unfold identify_learning_priorities at h
  by_cases hlen : (addHighPriorities skill_gaps []).length < 5
  · rw [if_pos hlen] at h
    rw [Option.map_eq_some'] at h
    obtain ⟨p, hp, hlp⟩ := h
    rw [← hlp] at hx
    have hxp : x ∈ p := List.take_subset 5 p hx
    rcases mem_of_addMediumPriorities skill_gaps _ p hp x hxp with h1 | h1
    · rw [addHighPriorities_eq, List.nil_append] at h1
      exact mem_highTake skill_gaps x h1
    · exact h1
  · rw [if_neg hlen] at h
    cases h
    have hxp : x ∈ addHighPriorities skill_gaps [] := List.take_subset 5 _ hx
    rw [addHighPriorities_eq, List.nil_append] at hxp
    exact mem_highTake skill_gaps x hxp

theorem identify_isSome (skill_gaps : List SkillGapEntry)
    (hne : ∀ g ∈ skill_gaps, g.skills ≠ []) :
    (identify_learning_priorities skill_gaps).isSome := by
  unfold identify_learning_priorities
  by_cases hlen : (addHighPriorities skill_gaps []).length < 5
  · rw [if_pos hlen]
    cases hm : addMediumPriorities skill_gaps (addHighPriorities skill_gaps []) with
    | none =>
      have := addMediumPriorities_isSome skill_gaps hne
        (addHighPriorities skill_gaps [])
      rw [hm] at this
      cases this
    | some p => rfl
  · rw [if_neg hlen]
    rfl

/-- Modelled from the spec description of pass 1 of
`identify_learning_priorities`: keep the High-priority categories in their
existing order and concatenate the first 3 gap skills of each, with no cap
on total length. -/
def specHighPass (skill_gaps : List SkillGapEntry) : List String :=
  (skill_gaps.filter fun g => decide (g.priority = "High")).flatMap fun g =>
    g.skills.take 3

/-- Modelled from the spec description of one step of pass 2: when the
category is Medium-priority and the running list is still shorter than 5,
append its first gap skill (undefined on an empty gap list, hence `none`);
otherwise leave the list unchanged. -/
def specMediumStep (acc : List String) (g : SkillGapEntry) :
    Option (List String) :=
  if g.priority = "Medium" ∧ acc.length < 5 then
    match g.skills with
    | [] => none
    | s :: _ => some (acc ++ [s])
  else some acc

/-- Modelled from the spec description of pass 2: fold `specMediumStep`
over the gap entries in order. -/
def specMediumPass (skill_gaps : List SkillGapEntry) (acc : List String) :
    Option (List String) :=
  skill_gaps.foldlM specMediumStep acc

/-- Modelled from the spec description of `identify_learning_priorities`:
pass 1; pass 2 only when pass 1 yielded fewer than 5 entries; final
truncation to the first 5 entries. -/
def specPriorities (skill_gaps : List SkillGapEntry) : Option (List String) :=
  let p1 := specHighPass skill_gaps
  if p1.length < 5 then
    (specMediumPass skill_gaps p1).map fun p => p.take 5
  else
    some (p1.take 5)

theorem highTake_eq_spec :
    ∀ skill_gaps : List SkillGapEntry, highTake skill_gaps = specHighPass skill_gaps := by
  intro skill_gaps
  induction skill_gaps with
  | nil => rfl
  | cons g rest ih =>
    by_cases h : g.priority = "High"
    · simp [highTake, specHighPass, List.filter_cons, h] at ih ⊢
      exact ih
    · simp [highTake, specHighPass, List.filter_cons, h] at ih ⊢
      exact ih

theorem addMediumPriorities_eq_spec :
    ∀ (skill_gaps : List SkillGapEntry) (acc : List String),
      addMediumPriorities skill_gaps acc = specMediumPass skill_gaps acc := by
  intro skill_gaps
  induction skill_gaps with
  | nil => intro acc; rfl
  | cons g rest ih =>
    intro acc
    by_cases h : g.priority = "Medium" ∧ acc.length < 5
    · simp only [addMediumPriorities, if_pos h, specMediumPass, List.foldlM_cons,
        specMediumStep]
      cases hs : g.skills with
      | nil => rfl
      | cons s tl => simp only [Option.bind_eq_bind, Option.some_bind]; exact ih _
    · simp only [addMediumPriorities, if_neg h, specMediumPass, List.foldlM_cons,
        specMediumStep]
      simp only [Option.bind_eq_bind, Option.some_bind]
      exact ih _

theorem analyze_some_elim (employee_data : EmployeeData)
    (position_requirements : PositionRequirements) (rep : GapReport)
    (h : analyze_skills_gap employee_data position_requirements = some rep) :
    rep.transferable_skills =
      addHighProficiency (flattenSkills employee_data)
        (transfAll (flattenSkills employee_data)
          position_requirements.required_skills) ∧
    rep.skill_gaps =
      gapsOf (flattenSkills employee_data)
        position_requirements.required_skills ∧
    identify_learning_priorities
      (gapsOf (flattenSkills employee_data)
        position_requirements.required_skills) =
      some rep.learning_priorities := by
  rw [analyze_skills_gap_eq] at h
  rw [Option.map_eq_some'] at h
  obtain ⟨lp, hlp, hrep⟩ := h
  cases hrep
  exact ⟨rfl, rfl, hlp⟩

/-- C1 counterexample: the claim that `transferable_skills` never contains
duplicate names is false. With one employee skill Python at proficiency 3
and two required categories requiring Python and python respectively, the
requirements pass appends the employee name twice, so the returned
`transferable_skills` is a list with a duplicate. -/
theorem transferable_dup_counterexample :
    analyze_skills_gap ⟨[⟨"Prog", [⟨"Python", 3⟩]⟩]⟩
      ⟨[⟨"A", ["Python"], none⟩, ⟨"B", ["python"], none⟩]⟩ =
      some ⟨["Python", "Python"], [], []⟩ ∧
    ¬ (["Python", "Python"] : List String).Nodup :=
  ⟨rfl, by decide⟩

/-- C1 (amended): only the proficiency-4 second pass suppresses duplicates;
it preserves the no-duplicates property, so whenever the list accumulated
by the requirements pass has no duplicate names, the final
`transferable_skills` of the report has none either. -/
theorem transferable_second_pass_nodup (employee_data : EmployeeData)
    (position_requirements : PositionRequirements) (rep : GapReport)
    (h : analyze_skills_gap employee_data position_requirements = some rep)
    (hnodup : (transfAll (flattenSkills employee_data)
      position_requirements.required_skills).Nodup) :
    rep.transferable_skills.Nodup := by
  obtain ⟨ht, _, _⟩ := analyze_some_elim _ _ _ h
  rw [ht]
  exact nodup_addHighProficiency _ _ hnodup

theorem transferable_second_pass_nodup_witness :
    (GapReport.mk ["Python"] [] []).transferable_skills.Nodup :=
  transferable_second_pass_nodup ⟨[⟨"Prog", [⟨"Python", 3⟩]⟩]⟩
    ⟨[⟨"A", ["Python"], none⟩]⟩ ⟨["Python"], [], []⟩ (by rfl) (by decide)

/-- C2: `identify_learning_priorities` equals the two-pass algorithm the
spec describes: pass 1 appends up to the first 3 gap skills of every
High-priority category with no total cap; pass 2 runs only when pass 1
yielded fewer than 5 entries and appends the first gap skill of each
Medium-priority category, rechecking the 5-entry ceiling before each
append; the result is truncated to the first 5 entries, and Low-priority
categories contribute nothing. -/
theorem identify_learning_priorities_spec_eq :
    ∀ skill_gaps : List SkillGapEntry,
      identify_learning_priorities skill_gaps = specPriorities skill_gaps := by
  intro skill_gaps
  simp only [identify_learning_priorities, specPriorities, addHighPriorities_eq,
    List.nil_append, highTake_eq_spec, addMediumPriorities_eq_spec]

/-- C3: for every report produced by `analyze_skills_gap`, the
`learning_priorities` list has length at most 5, and every name in it also
occurs in the skills list of some `skill_gaps` entry of the same report. -/
theorem learning_priorities_bounded_and_from_gaps (employee_data : EmployeeData)
    (position_requirements : PositionRequirements) (rep : GapReport)
    (h : analyze_skills_gap employee_data position_requirements = some rep) :
    rep.learning_priorities.length ≤ 5 ∧
    ∀ x ∈ rep.learning_priorities, ∃ g ∈ rep.skill_gaps, x ∈ g.skills := by
  obtain ⟨_, hg, hlp⟩ := analyze_some_elim _ _ _ h
  refine ⟨identify_length _ _ hlp, ?_⟩
  intro x hx
  rw [hg]
  exact identify_mem _ _ hlp x hx

theorem learning_priorities_bounded_witness :
    (GapReport.mk [] [⟨"A", ["SQL"], "High"⟩] ["SQL"]).learning_priorities.length ≤ 5 ∧
    ∀ x ∈ (GapReport.mk [] [⟨"A", ["SQL"], "High"⟩] ["SQL"]).learning_priorities,
      ∃ g ∈ (GapReport.mk [] [⟨"A", ["SQL"], "High"⟩] ["SQL"]).skill_gaps,
        x ∈ g.skills :=
  learning_priorities_bounded_and_from_gaps ⟨[]⟩ ⟨[⟨"A", ["SQL"], some "High"⟩]⟩
    ⟨[], [⟨"A", ["SQL"], "High"⟩], ["SQL"]⟩ (by rfl)

/-- C4 counterexample: the claim quantifies over any case-insensitive match
with proficiency at least 3, but the code classifies by the first match in
flattened order. Here the required skill Python matches the employee skill
PYTHON (proficiency 3), yet because the earlier duplicate python has
proficiency 2, the skill lands in the gap list of its category and
`transferable_skills` stays empty. -/
theorem first_match_classification_counterexample :
    strLower "PYTHON" = strLower "Python" ∧ ((3 : Int) ≥ 3) ∧
    (⟨"PYTHON", 3, "Prog"⟩ : FlatSkill) ∈
      flattenSkills ⟨[⟨"Prog", [⟨"python", 2⟩, ⟨"PYTHON", 3⟩]⟩]⟩ ∧
    analyze_skills_gap ⟨[⟨"Prog", [⟨"python", 2⟩, ⟨"PYTHON", 3⟩]⟩]⟩
      ⟨[⟨"A", ["Python"], none⟩]⟩ =
      some ⟨[], [⟨"A", ["Python"], "Medium"⟩], ["Python"]⟩ :=
  ⟨rfl, by decide, by decide, rfl⟩

/-- C4 (amended): if the first case-insensitive match of a required skill
in the flattened inventory has proficiency at least 3, then that match's
employee-side name appears in `transferable_skills` and the required name
appears in no `skill_gaps` entry at all. -/
theorem first_match_transferable_not_gap (employee_data : EmployeeData)
    (position_requirements : PositionRequirements) (rep : GapReport)
    (h : analyze_skills_gap employee_data position_requirements = some rep)
    (rc : ReqCategory) (hrc : rc ∈ position_requirements.required_skills)
    (s : String) (hs : s ∈ rc.skills) (e : FlatSkill)
    (he : lookupSkill s (flattenSkills employee_data) = some e)
    (hp : e.proficiency ≥ 3) :
    e.name ∈ rep.transferable_skills ∧ ∀ g ∈ rep.skill_gaps, s ∉ g.skills := by
  obtain ⟨ht, hg, _⟩ := analyze_some_elim _ _ _ h
  constructor
  · rw [ht]
    exact mem_addHighProficiency_of_mem _ _ _
      (mem_transfAll _ _ rc _ hrc (mem_transfOf _ _ s e hs he hp))
  · intro g hgmem hsg
    rw [hg] at hgmem
    rw [mem_gapsOf_iff] at hgmem
    obtain ⟨rc2, _, hentry⟩ := hgmem
    obtain ⟨_, hskills, _, _⟩ := gapEntryOf_some _ _ _ hentry
    rw [hskills] at hsg
    rw [mem_pureGaps_iff] at hsg
    exact absurd (hsg.2 e he) (not_lt.mpr hp)

theorem first_match_transferable_witness :
    "Python" ∈ (GapReport.mk ["Python"] [] []).transferable_skills ∧
    ∀ g ∈ (GapReport.mk ["Python"] [] []).skill_gaps, "python" ∉ g.skills :=
  first_match_transferable_not_gap ⟨[⟨"Prog", [⟨"Python", 3⟩]⟩]⟩
    ⟨[⟨"A", ["python"], none⟩]⟩ ⟨["Python"], [], []⟩ (by rfl)
    ⟨"A", ["python"], none⟩ (by decide) "python" (by decide)
    ⟨"Python", 3, "Prog"⟩ (by rfl) (by decide)

/-- C5: a required skill with no case-insensitive match anywhere in the
flattened inventory always appears in the gap list recorded for its
category, regardless of the proficiencies of other employee skills. -/
theorem absent_skill_always_gap (employee_data : EmployeeData)
    (position_requirements : PositionRequirements) (rep : GapReport)
    (h : analyze_skills_gap employee_data position_requirements = some rep)
    (rc : ReqCategory) (hrc : rc ∈ position_requirements.required_skills)
    (s : String) (hs : s ∈ rc.skills)
    (habsent : ∀ e ∈ flattenSkills employee_data,
      strLower e.name ≠ strLower s) :
    ∃ g ∈ rep.skill_gaps, g.category = rc.category ∧ s ∈ g.skills := by
  obtain ⟨_, hg, _⟩ := analyze_some_elim _ _ _ h
  rw [hg]
  apply gapsOf_complete _ _ rc s hrc
  rw [mem_pureGaps_iff]
  refine ⟨hs, fun e he => ?_⟩
  rw [(lookupSkill_eq_none_iff s _).mpr habsent] at he
  cases he

theorem absent_skill_always_gap_witness :
    ∃ g ∈ (GapReport.mk ["SQL"] [⟨"A", ["Excel"], "Medium"⟩]
      ["Excel"]).skill_gaps, g.category = "A" ∧ "Excel" ∈ g.skills :=
  absent_skill_always_gap ⟨[⟨"Prog", [⟨"SQL", 5⟩]⟩]⟩ ⟨[⟨"A", ["Excel"], none⟩]⟩
    ⟨["SQL"], [⟨"A", ["Excel"], "Medium"⟩], ["Excel"]⟩ (by rfl)
    ⟨"A", ["Excel"], none⟩ (by decide) "Excel" (by decide) (by decide)

/-- C6: the matching step is the first case-insensitive exact-name match
over the flattened inventory: the scan equals `List.find?` with lowercased
equality; a found match is unchanged by any entries appended after the
list, so a later duplicate cannot affect it; gap classification of a
required skill depends only on that first match; and on a concrete
inventory with a lower-proficiency duplicate first, the lower-proficiency
entry is the one found, not the higher one. -/
theorem match_is_first_case_insensitive :
    (∀ (s : String) (l : List FlatSkill),
      lookupSkill s l = l.find? fun e => strLower e.name == strLower s) ∧
    (∀ (s : String) (l₁ l₂ : List FlatSkill) (e : FlatSkill),
      lookupSkill s l₁ = some e → lookupSkill s (l₁ ++ l₂) = some e) ∧
    (∀ (empSkills : List FlatSkill) (skills : List String) (s : String),
      s ∈ pureGaps empSkills skills ↔
        s ∈ skills ∧ ∀ e, lookupSkill s empSkills = some e →
          e.proficiency < 3) ∧
    lookupSkill "Python" [⟨"python", 2, "c"⟩, ⟨"python", 5, "c"⟩] =
      some ⟨"python", 2, "c"⟩ :=
  ⟨lookupSkill_eq_find,
   fun s l₁ l₂ e h => lookupSkill_append s l₂ l₁ e h,
   mem_pureGaps_iff,
   by rfl⟩

theorem match_is_first_witness :
    lookupSkill "Python" ([⟨"python", 2, "c"⟩] ++ [⟨"PYTHON", 5, "c"⟩]) =
      some ⟨"python", 2, "c"⟩ :=
  match_is_first_case_insensitive.2.1 "Python" [⟨"python", 2, "c"⟩]
    [⟨"PYTHON", 5, "c"⟩] ⟨"python", 2, "c"⟩ (by rfl)

/-- C7: every flattened employee skill with proficiency at least 4 has its
name in the `transferable_skills` of the returned report, whether or not
any required category mentions it. -/
theorem high_proficiency_in_transferable (employee_data : EmployeeData)
    (position_requirements : PositionRequirements) (rep : GapReport)
    (h : analyze_skills_gap employee_data position_requirements = some rep)
    (e : FlatSkill) (he : e ∈ flattenSkills employee_data)
    (hp : e.proficiency ≥ 4) :
    e.name ∈ rep.transferable_skills := by
  obtain ⟨ht, _, _⟩ := analyze_some_elim _ _ _ h
  rw [ht]
  exact name_mem_addHighProficiency _ _ e he hp

theorem high_proficiency_in_transferable_witness :
    "SQL" ∈ (GapReport.mk ["SQL"] [] []).transferable_skills :=
  high_proficiency_in_transferable ⟨[⟨"Prog", [⟨"SQL", 5⟩]⟩]⟩ ⟨[]⟩
    ⟨["SQL"], [], []⟩ (by rfl) ⟨"SQL", 5, "Prog"⟩ (by decide) (by decide)

/-- C8: the `skill_gaps` of a returned report is exactly the required
categories mapped through their per-category gap entry, with zero-gap
categories contributing no entry; consequently every entry has a non-empty
skills list, and its category and priority fields come from its required
category, the priority defaulting to Medium when absent. -/
theorem skill_gaps_structure (employee_data : EmployeeData)
    (position_requirements : PositionRequirements) (rep : GapReport)
    (h : analyze_skills_gap employee_data position_requirements = some rep) :
    rep.skill_gaps =
      (position_requirements.required_skills).filterMap
        (gapEntryOf (flattenSkills employee_data)) ∧
    (∀ rc ∈ position_requirements.required_skills,
      pureGaps (flattenSkills employee_data) rc.skills = [] →
      gapEntryOf (flattenSkills employee_data) rc = none) ∧
    (∀ g ∈ rep.skill_gaps, g.skills ≠ []) ∧
    (∀ g ∈ rep.skill_gaps, ∃ rc ∈ position_requirements.required_skills,
      g.category = rc.category ∧
      g.skills = pureGaps (flattenSkills employee_data) rc.skills ∧
      g.priority = rc.priority.getD "Medium") := by
  obtain ⟨_, hg, _⟩ := analyze_some_elim _ _ _ h
  refine ⟨hg, ?_, ?_, ?_⟩
  · intro rc _ hempty
    unfold gapEntryOf
    rw [if_pos hempty]
  · intro g hgm
    rw [hg] at hgm
    exact gapsOf_skills_ne_nil _ _ g hgm
  · intro g hgm
    rw [hg] at hgm
    rw [mem_gapsOf_iff] at hgm
    obtain ⟨rc, hrc, hentry⟩ := hgm
    obtain ⟨h1, h2, _, h4⟩ := gapEntryOf_some _ _ _ hentry
    exact ⟨rc, hrc, h1, h2, h4⟩

theorem skill_gaps_structure_witness :
    (GapReport.mk [] [⟨"A", ["X"], "Low"⟩] []).skill_gaps =
      ([⟨"A", ["X"], some "Low"⟩] : List ReqCategory).filterMap
        (gapEntryOf (flattenSkills ⟨[]⟩)) ∧
    (∀ rc ∈ ([⟨"A", ["X"], some "Low"⟩] : List ReqCategory),
      pureGaps (flattenSkills ⟨[]⟩) rc.skills = [] →
      gapEntryOf (flattenSkills ⟨[]⟩) rc = none) ∧
    (∀ g ∈ (GapReport.mk [] [⟨"A", ["X"], "Low"⟩] []).skill_gaps,
      g.skills ≠ []) ∧
    (∀ g ∈ (GapReport.mk [] [⟨"A", ["X"], "Low"⟩] []).skill_gaps,
      ∃ rc ∈ ([⟨"A", ["X"], some "Low"⟩] : List ReqCategory),
        g.category = rc.category ∧
        g.skills = pureGaps (flattenSkills ⟨[]⟩) rc.skills ∧
        g.priority = rc.priority.getD "Medium") :=
  skill_gaps_structure ⟨[]⟩ ⟨[⟨"A", ["X"], some "Low"⟩]⟩
    ⟨[], [⟨"A", ["X"], "Low"⟩], []⟩ (by rfl)

/-- C9: `analyze_skills_gap` never fails: for every input the result is
`some` report; empty inventory and empty requirements yield a report whose
three collections are all empty; and proficiencies outside the range 1 to 5
are accepted and compared numerically, as the runs at proficiency 7
(classified transferable) and proficiency 0 (classified a gap) show. -/
theorem analyze_total_and_empty :
    (∀ (employee_data : EmployeeData)
       (position_requirements : PositionRequirements),
      (analyze_skills_gap employee_data position_requirements).isSome = true) ∧
    analyze_skills_gap ⟨[]⟩ ⟨[]⟩ = some ⟨[], [], []⟩ ∧
    analyze_skills_gap ⟨[⟨"C", [⟨"X", 7⟩]⟩]⟩ ⟨[⟨"A", ["X"], none⟩]⟩ =
      some ⟨["X"], [], []⟩ ∧
    analyze_skills_gap ⟨[⟨"C", [⟨"X", 0⟩]⟩]⟩ ⟨[⟨"A", ["X"], none⟩]⟩ =
      some ⟨[], [⟨"A", ["X"], "Medium"⟩], ["X"]⟩ := by
  refine ⟨?_, rfl, rfl, rfl⟩
  intro employee_data position_requirements
  rw [analyze_skills_gap_eq]
  have h := identify_isSome
    (gapsOf (flattenSkills employee_data)
      position_requirements.required_skills)
    (fun g hgm => gapsOf_skills_ne_nil _ _ g hgm)
  cases hm : identify_learning_priorities
    (gapsOf (flattenSkills employee_data)
      position_requirements.required_skills) with
  | none => rw [hm] at h; cases h
  | some lp => rfl

/-- C10: `learning_priorities` entries are not deduplicated: with two
High-priority required categories both gapping on SQL, the returned
`learning_priorities` contains SQL twice. -/
theorem learning_priorities_duplicates :
    analyze_skills_gap ⟨[]⟩
      ⟨[⟨"A", ["SQL"], some "High"⟩, ⟨"B", ["SQL"], some "High"⟩]⟩ =
      some ⟨[], [⟨"A", ["SQL"], "High"⟩, ⟨"B", ["SQL"], "High"⟩],
        ["SQL", "SQL"]⟩ ∧
    ¬ (["SQL", "SQL"] : List String).Nodup :=
  ⟨rfl, by decide⟩

end LearnFinity
